import Mathlib

/-!
Shallow embedding of the `mipmap-1d` Rust crate (`src/mipmap.rs`).

The crate defines `MipMap1D<T: Num + ToPrimitive + FromPrimitive + Copy>`,
a pyramid of progressively downsampled copies of a numeric vector.

Modelling choices:
* The generic numeric type `T` together with its trait operations
  (`Num`'s `+`, `ToPrimitive::to_f64`, `FromPrimitive::from_f64`) is
  modelled by a type parameter `T` and a record `NumOps T` of the three
  operations, exactly the dictionary the Rust generic code receives.
* The 64-bit floating-point intermediate domain is modelled by `ℚ`.
  The only arithmetic the code performs in that domain is a division by
  `2.0`, which is exact in binary floating point (no rounding step is
  hidden by using `ℚ` there); any rounding performed by the conversions
  themselves lives inside the abstract `to_f64` / `from_f64` operations.
* `panic!` / `.unwrap()` failure is modelled by `Option`: a `none`
  result of `downsample`, `buildLoop` or `new` means the Rust code
  panics during that call.
-/

namespace MipMap

/-- The trait-operation dictionary a `MipMap1D<T>` instantiation carries:
`add` is `Num`'s `+` on `T`, `to_f64` is `ToPrimitive::to_f64`
(fallible), `from_f64` is `FromPrimitive::from_f64` (fallible).
The `f64` domain is modelled by `ℚ`. -/
structure NumOps (T : Type) where
  add : T → T → T
  to_f64 : T → Option ℚ
  from_f64 : ℚ → Option T

/-- Rust's `slice::chunks(2)`: splits a list into consecutive chunks of
length 2, left to right, the last chunk holding the lone leftover
element when the length is odd. -/
def chunksTwo {T : Type} : List T → List (List T)
  | [] => []
  | [a] => [[a]]
  | a :: b :: rest => [a, b] :: chunksTwo rest

/-- The closure passed to `.map` inside `MipMap1D::downsample`:
```
|pair| match pair.len() {
    1 => pair[0],
    2 => T::from_f64((pair[0] + pair[1]).to_f64().unwrap() / 2.0).unwrap(),
    _ => panic!("Unsound condition"),
}
```
`none` models a panic (either an `.unwrap()` on `None` or the `_` arm). -/
def combineChunk {T : Type} (ops : NumOps T) (pair : List T) : Option T :=
  match pair with
  | [a] => some a
  | [a, b] =>
      match ops.to_f64 (ops.add a b) with
      | some s => ops.from_f64 (s / 2)
      | none => none
  | _ => none

/-- `.map(...).collect()` over the chunks, propagating panics. -/
def combineAll {T : Type} (ops : NumOps T) : List (List T) → Option (List T)
  | [] => some []
  | c :: cs =>
      match combineChunk ops c, combineAll ops cs with
      | some v, some vs => some (v :: vs)
      | _, _ => none

/-- `MipMap1D::downsample`:
```
source.chunks(2).map(|pair| ...).collect()
``` -/
def downsample {T : Type} (ops : NumOps T) (source : List T) : Option (List T) :=
  combineAll ops (chunksTwo source)

theorem chunksTwo_length {T : Type} : ∀ l : List T, (chunksTwo l).length = (l.length + 1) / 2
  | [] => by simp [chunksTwo]
  | [_] => by simp [chunksTwo]
  | _ :: _ :: rest => by
      have ih := chunksTwo_length rest
      simp only [chunksTwo, List.length_cons]
      omega

theorem combineAll_length {T : Type} (ops : NumOps T) :
    ∀ cs out, combineAll ops cs = some out → out.length = cs.length := by
  intro cs
  induction cs with
  | nil => intro out h; simp [combineAll] at h; simp [← h]
  | cons c cs ih =>
      intro out h
      simp only [combineAll] at h
      cases hc : combineChunk ops c with
      | none => rw [hc] at h; exact absurd h (by simp)
      | some v =>
          rw [hc] at h
          cases hcs : combineAll ops cs with
          | none => rw [hcs] at h; exact absurd h (by simp)
          | some vs =>
              rw [hcs] at h
              simp only [Option.some.injEq] at h
              subst h
              simp [ih vs hcs]

theorem downsample_length {T : Type} (ops : NumOps T) (source out : List T)
    (h : downsample ops source = some out) : out.length = (source.length + 1) / 2 := by
  rw [downsample] at h
  rw [combineAll_length ops _ _ h, chunksTwo_length]

/-- The `while current.len() > 1` loop body of `MipMap1D::new`, returning
the list of levels pushed by the loop (level 0 excluded):
```
while current.len() > 1 {
    let mipmap = Self::downsample(&current);
    current.clone_from(&mipmap);
    data.push(mipmap);
}
``` -/
def buildLoop {T : Type} (ops : NumOps T) (current : List T) : Option (List (List T)) :=
  if h : 1 < current.length then
    match hm : downsample ops current with
    | none => none
    | some mipmap =>
        match buildLoop ops mipmap with
        | none => none
        | some rest => some (mipmap :: rest)
  else
    some []
termination_by current.length
decreasing_by
  have hl := downsample_length ops current mipmap hm
  omega

/-- The Rust mipmap structure: `data: Vec<Vec<T>>`. -/
structure MipMap1D (T : Type) where
  data : List (List T)

/-- `MipMap1D::new`: level 0 is a clone of the source, then the loop
appends downsampled levels until length 1 is reached. `none` models a
panic during construction. -/
def MipMap1D.new {T : Type} (ops : NumOps T) (source : List T) : Option (MipMap1D T) :=
  match buildLoop ops source with
  | none => none
  | some levels => some ⟨source :: levels⟩

/-- `MipMap1D::num_levels`: `self.data.len()`. -/
def MipMap1D.num_levels {T : Type} (m : MipMap1D T) : Nat :=
  m.data.length

/-- `MipMap1D::get_level`:
```
if level >= self.num_levels() { return None; }
Some(&self.data[level])
``` -/
def MipMap1D.get_level {T : Type} (m : MipMap1D T) (level : Nat) : Option (List T) :=
  if h : level ≥ m.num_levels then none
  else some (m.data.get ⟨level, Nat.lt_of_not_le h⟩)

theorem buildLoop_le_one {T : Type} (ops : NumOps T) {current : List T}
    (h : current.length ≤ 1) : buildLoop ops current = some [] := by
  rw [buildLoop]
  rw [dif_neg (by omega)]

theorem buildLoop_step_none {T : Type} (ops : NumOps T) {current : List T}
    (h : 1 < current.length) (hd : downsample ops current = none) :
    buildLoop ops current = none := by
  rw [buildLoop, dif_pos h]
  split
  · rfl
  · rename_i m heq
    rw [hd] at heq
    exact absurd heq (by simp)

theorem buildLoop_step_some {T : Type} (ops : NumOps T) {current m : List T}
    (h : 1 < current.length) (hd : downsample ops current = some m) :
    buildLoop ops current =
      match buildLoop ops m with
      | none => none
      | some rest => some (m :: rest) := by
  rw [buildLoop, dif_pos h]
  split
  · rename_i heq
    rw [hd] at heq
    exact absurd heq (by simp)
  · rename_i m2 heq
    rw [hd] at heq
    injection heq with h2
    subst h2
    rfl

/-- The list of levels produced by the construction loop forms a chain:
each level is the downsample of the previous one. -/
def Chained {T : Type} (ops : NumOps T) : List T → List (List T) → Prop
  | _, [] => True
  | cur, l :: ls => downsample ops cur = some l ∧ Chained ops l ls

theorem buildLoop_invariant {T : Type} (ops : NumOps T) (current : List T)
    (levels : List (List T)) (h : buildLoop ops current = some levels) :
    Chained ops current levels ∧
    (1 ≤ current.length → ((current :: levels).getLast (by simp)).length = 1) ∧
    (∀ l ∈ (current :: levels).dropLast, 1 < l.length) := by
  by_cases hl : 1 < current.length
  · cases hd : downsample ops current with
    | none =>
        rw [buildLoop_step_none ops hl hd] at h
        exact absurd h (by simp)
    | some m =>
        rw [buildLoop_step_some ops hl hd] at h
        cases hb : buildLoop ops m with
        | none =>
            rw [hb] at h
            exact absurd h (by simp)
        | some rest =>
            rw [hb] at h
            simp only [Option.some.injEq] at h
            subst h
            have hmlen : m.length = (current.length + 1) / 2 :=
              downsample_length ops current m hd
            have ih := buildLoop_invariant ops m rest hb
            refine ⟨⟨hd, ih.1⟩, ?_, ?_⟩
            · intro _
              rw [List.getLast_cons (by simp)]
              exact ih.2.1 (by omega)
            · intro l hm
              rw [List.dropLast_cons₂] at hm
              rcases List.mem_cons.1 hm with hcur | htail
              · subst hcur; exact hl
              · exact ih.2.2 l htail
  · rw [buildLoop_le_one ops (by omega)] at h
    simp only [Option.some.injEq] at h
    subst h
    refine ⟨trivial, ?_, ?_⟩
    · intro h1
      simp only [List.getLast_singleton]
      omega
    · intro l hm
      simp at hm
termination_by current.length
decreasing_by
  have := downsample_length ops current m hd
  omega

theorem buildLoop_count {T : Type} (ops : NumOps T) (current : List T)
    (levels : List (List T)) (h : buildLoop ops current = some levels)
    (hne : 1 ≤ current.length) : levels.length = Nat.clog 2 current.length := by
  by_cases hl : 1 < current.length
  · cases hd : downsample ops current with
    | none =>
        rw [buildLoop_step_none ops hl hd] at h
        exact absurd h (by simp)
    | some m =>
        rw [buildLoop_step_some ops hl hd] at h
        cases hb : buildLoop ops m with
        | none =>
            rw [hb] at h
            exact absurd h (by simp)
        | some rest =>
            rw [hb] at h
            simp only [Option.some.injEq] at h
            subst h
            have hmlen : m.length = (current.length + 1) / 2 :=
              downsample_length ops current m hd
            have ih := buildLoop_count ops m rest hb (by omega)
            rw [Nat.clog_of_two_le (by omega) (by omega)]
            have h21 : (current.length + 2 - 1) / 2 = (current.length + 1) / 2 := by omega
            rw [h21]
            simp only [List.length_cons, ih, hmlen]
  · rw [buildLoop_le_one ops (by omega)] at h
    simp only [Option.some.injEq] at h
    subst h
    rw [Nat.clog_of_right_le_one (by omega)]
    rfl
termination_by current.length
decreasing_by
  have := downsample_length ops current m hd
  omega

theorem chained_get {T : Type} (ops : NumOps T) :
    ∀ (cur : List T) (ls : List (List T)) (k : Nat),
      Chained ops cur ls → k + 1 < (cur :: ls).length →
      ∃ a b, (cur :: ls)[k]? = some a ∧ (cur :: ls)[k + 1]? = some b ∧
        downsample ops a = some b := by
  intro cur ls
  induction ls generalizing cur with
  | nil => intro k _ hk; simp at hk
  | cons l ls ih =>
      intro k hch hk
      cases k with
      | zero => exact ⟨cur, l, by simp, by simp, hch.1⟩
      | succ k =>
          obtain ⟨a, b, ha, hb, hab⟩ := ih l k hch.2 (by simpa using hk)
          exact ⟨a, b, by simpa using ha, by simpa using hb, hab⟩

theorem get_level_eq_getElem? {T : Type} (m : MipMap1D T) (level : Nat) :
    m.get_level level = m.data[level]? := by
  unfold MipMap1D.get_level MipMap1D.num_levels
  split
  · exact (List.getElem?_eq_none (by omega)).symm
  · rw [List.getElem?_eq_getElem (by omega)]
    simp [List.get_eq_getElem]

theorem chunksTwo_shapes {T : Type} :
    ∀ l : List T, ∀ c ∈ chunksTwo l, c.length = 1 ∨ c.length = 2
  | [] => by simp [chunksTwo]
  | [a] => by simp [chunksTwo]
  | _ :: _ :: rest => by
      intro c hc
      simp only [chunksTwo, List.mem_cons] at hc
      rcases hc with rfl | hc
      · right; rfl
      · exact chunksTwo_shapes rest c hc

theorem combineAll_none {T : Type} (ops : NumOps T) :
    ∀ cs, ∀ c ∈ cs, combineChunk ops c = none → combineAll ops cs = none := by
  intro cs
  induction cs with
  | nil => intro c hc; simp at hc
  | cons d ds ih =>
      intro c hc hfail
      rcases List.mem_cons.1 hc with rfl | htail
      · simp [combineAll, hfail]
      · rw [combineAll, ih c htail hfail]
        rcases combineChunk ops d with _ | v <;> rfl

/-- Helper for evaluating the construction loop on concrete inputs. -/
theorem buildLoop_cons_eval {T : Type} (ops : NumOps T) {current m : List T}
    {rest : List (List T)} (h : 1 < current.length)
    (hd : downsample ops current = some m) (hb : buildLoop ops m = some rest) :
    buildLoop ops current = some (m :: rest) := by
  rw [buildLoop_step_some ops h hd, hb]

/-- A concrete dictionary modelling Rust's `i64` on small values:
addition is integer addition, `to_f64` embeds exactly (exact for
magnitudes below `2^53`), `from_f64` truncates toward zero as
`FromPrimitive::from_f64` does for integer types (in-range on every
value arising in the examples below). -/
def intOps : NumOps ℤ where
  add := (· + ·)
  to_f64 := fun n => some (n : ℚ)
  from_f64 := fun q => some (q.num / (q.den : ℤ))

/-- A concrete dictionary modelling Rust's `Wrapping<u8>` (for which
`num_traits` provides `Num`, `ToPrimitive` and `FromPrimitive`):
addition wraps modulo 256, `to_f64` is exact, `from_f64` truncates
toward zero and fails outside `[0, 256)`. -/
def u8wrapOps : NumOps (Fin 256) where
  add := (· + ·)
  to_f64 := fun a => some ((a : Nat) : ℚ)
  from_f64 := fun q =>
    if h : 0 ≤ q.num / (q.den : ℤ) ∧ q.num / (q.den : ℤ) < 256 then
      some ⟨(q.num / (q.den : ℤ)).toNat, by omega⟩
    else none

/-- A dictionary whose `from_f64` always fails, modelling a numeric type
too narrow to represent any averaged value. -/
def failOps : NumOps ℤ where
  add := (· + ·)
  to_f64 := fun n => some (n : ℚ)
  from_f64 := fun _ => none

/-- The crate's doc example, evaluated: `[2,4,6,8,9]` yields levels
`[[2,4,6,8,9],[3,7,9],[5,9],[7]]`. -/
theorem new_intOps_example :
    MipMap1D.new intOps [2, 4, 6, 8, 9] =
      some ⟨[[2, 4, 6, 8, 9], [3, 7, 9], [5, 9], [7]]⟩ := by
  have e1 : buildLoop intOps [7] = some [] := buildLoop_le_one intOps (by simp)
  have e2 : buildLoop intOps [5, 9] = some [[7]] :=
    buildLoop_cons_eval intOps (by simp)
      (by norm_num [downsample, chunksTwo, combineAll, combineChunk, intOps]) e1
  have e3 : buildLoop intOps [3, 7, 9] = some [[5, 9], [7]] :=
    buildLoop_cons_eval intOps (by simp)
      (by norm_num [downsample, chunksTwo, combineAll, combineChunk, intOps]) e2
  have e4 : buildLoop intOps [2, 4, 6, 8, 9] = some [[3, 7, 9], [5, 9], [7]] :=
    buildLoop_cons_eval intOps (by simp)
      (by norm_num [downsample, chunksTwo, combineAll, combineChunk, intOps]) e3
  unfold MipMap1D.new
  rw [e4]

/-- Modelled from the spec (§4.2), for comparison with the code's
`combineChunk`: the pair operation as the spec describes it — convert
the two elements individually to the 64-bit floating-point domain, sum
the intermediates there, divide by 2.0, convert back to `T`. -/
def combineChunkSpec {T : Type} (ops : NumOps T) (pair : List T) : Option T :=
  match pair with
  | [a] => some a
  | [a, b] =>
      match ops.to_f64 a, ops.to_f64 b with
      | some x, some y => ops.from_f64 ((x + y) / 2)
      | _, _ => none
  | _ => none

/-- C1: For every constructed `MipMap1D` and every index `i`,
`get_level i` returns a present value if and only if `i < num_levels`;
for every `i ≥ num_levels`, including the boundary `i = num_levels`,
it returns `none` rather than faulting (the embedded `get_level` is a
total function whose out-of-range branch is `none`). -/
theorem get_level_isSome_iff {T : Type} (m : MipMap1D T) (i : Nat) :
    (MipMap1D.get_level m i).isSome ↔ i < MipMap1D.num_levels m := by
  unfold MipMap1D.get_level
  split <;> rename_i h <;> simp <;> omega

/-- C2: For every non-empty input of length `N` on which construction
succeeds, `num_levels = ⌈log₂ N⌉ + 1`, with `⌈log₂ 1⌉ = 0`
(`Nat.clog 2`). -/
theorem num_levels_eq_clog {T : Type} (ops : NumOps T) (source : List T)
    (m : MipMap1D T) (h : MipMap1D.new ops source = some m) (hne : source ≠ []) :
    MipMap1D.num_levels m = Nat.clog 2 source.length + 1 := by
  unfold MipMap1D.new at h
  cases hb : buildLoop ops source with
  | none => rw [hb] at h; exact absurd h (by simp)
  | some levels =>
      rw [hb] at h
      simp only [Option.some.injEq] at h
      subst h
      have hpos : 0 < source.length := List.length_pos.2 hne
      have hcount := buildLoop_count ops source levels hb (by omega)
      unfold MipMap1D.num_levels
      simp [hcount]

/-- C2 witness: the crate's doc example `[2,4,6,8,9]` (length 5) has
`⌈log₂ 5⌉ + 1 = 4` levels. -/
theorem num_levels_eq_clog_witness :
    MipMap1D.new intOps [2, 4, 6, 8, 9] =
      some ⟨[[2, 4, 6, 8, 9], [3, 7, 9], [5, 9], [7]]⟩ ∧
    ([2, 4, 6, 8, 9] : List ℤ) ≠ [] ∧
    MipMap1D.num_levels (⟨[[2, 4, 6, 8, 9], [3, 7, 9], [5, 9], [7]]⟩ : MipMap1D ℤ) =
      Nat.clog 2 ([2, 4, 6, 8, 9] : List ℤ).length + 1 :=
  ⟨new_intOps_example, by simp,
    num_levels_eq_clog intOps [2, 4, 6, 8, 9] _ new_intOps_example (by simp)⟩

/-- C3: The downsampling step partitions its input into consecutive
pairs left to right: the empty input yields the empty output, a lone
trailing element passes through unchanged, and an input starting with a
pair yields that pair's combined value followed by the downsample of the
rest. Together these three equations characterize
`[a,b,c,d,...] ↦ [avg(a,b), avg(c,d), ...]` with odd-length trailing
passthrough. -/
theorem downsample_pair_recurrence {T : Type} (ops : NumOps T) (a b : T)
    (rest : List T) :
    downsample ops ([] : List T) = some [] ∧
    downsample ops [a] = some [a] ∧
    downsample ops (a :: b :: rest) =
      (match combineChunk ops [a, b], downsample ops rest with
        | some v, some vs => some (v :: vs)
        | _, _ => none) :=
  ⟨rfl, rfl, rfl⟩

/-- C4 (amended): for each pair `(a, b)` the output is computed by
summing the pair with `T`'s own addition, converting that `T`-sum to
the 64-bit floating-point intermediate, dividing by 2.0 and converting
back to `T`: the addition is performed in `T`, not in the 64-bit
floating-point domain. -/
theorem downsample_pair_formula {T : Type} (ops : NumOps T) (a b : T) :
    downsample ops [a, b] =
      Option.map (fun v => [v])
        ((ops.to_f64 (ops.add a b)).bind (fun s => ops.from_f64 (s / 2))) := by
  show combineAll ops [[a, b]] = _
  cases h1 : ops.to_f64 (ops.add a b) with
  | none => simp [combineAll, combineChunk, h1]
  | some s => cases h2 : ops.from_f64 (s / 2) <;>
      simp [combineAll, combineChunk, h1, h2]

/-- C4 (counterexample): at `T = Wrapping<u8>` with the pair
`(200, 100)`, the code's computation (sum in `T`, which wraps to 44,
then convert) yields 22, while the computation the claim describes
(convert each element to the floating-point domain individually, sum
there) yields 150. -/
theorem downsample_add_in_T_cex :
    downsample u8wrapOps [(200 : Fin 256), 100] = some [(22 : Fin 256)] ∧
    combineChunkSpec u8wrapOps [(200 : Fin 256), 100] = some (150 : Fin 256) ∧
    (22 : Fin 256) ≠ (150 : Fin 256) := by
  have hadd : u8wrapOps.add 200 100 = (44 : Fin 256) := by decide
  have hto : u8wrapOps.to_f64 44 = some (44 : ℚ) := by
    show some (((44 : Fin 256) : Nat) : ℚ) = some (44 : ℚ)
    norm_num [show ((44 : Fin 256) : Nat) = 44 from rfl]
  have hto200 : u8wrapOps.to_f64 200 = some (200 : ℚ) := by
    show some (((200 : Fin 256) : Nat) : ℚ) = some (200 : ℚ)
    norm_num [show ((200 : Fin 256) : Nat) = 200 from rfl]
  have hto100 : u8wrapOps.to_f64 100 = some (100 : ℚ) := by
    show some (((100 : Fin 256) : Nat) : ℚ) = some (100 : ℚ)
    norm_num [show ((100 : Fin 256) : Nat) = 100 from rfl]
  have hdiv : (44 : ℚ) / 2 = 22 := by norm_num
  have hdiv2 : ((200 : ℚ) + 100) / 2 = 150 := by norm_num
  have hfrom22 : u8wrapOps.from_f64 22 = some 22 := by
    simp only [u8wrapOps]
    norm_num
    decide
  have hfrom150 : u8wrapOps.from_f64 150 = some 150 := by
    simp only [u8wrapOps]
    norm_num
    decide
  refine ⟨?_, ?_, by decide⟩
  · show combineAll u8wrapOps [[200, 100]] = _
    simp only [combineAll, combineChunk, hadd, hto, hdiv, hfrom22]
  · simp only [combineChunkSpec, hto200, hto100, hdiv2, hfrom150]

/-- C5: For every input on which construction succeeds, level 0 of the
constructed mipmap equals the original input exactly, element for
element (the structure stores its own copy of the input as its first
level). -/
theorem get_level_zero {T : Type} (ops : NumOps T) (source : List T)
    (m : MipMap1D T) (h : MipMap1D.new ops source = some m) :
    MipMap1D.get_level m 0 = some source := by
  unfold MipMap1D.new at h
  cases hb : buildLoop ops source with
  | none => rw [hb] at h; exact absurd h (by simp)
  | some levels =>
      rw [hb] at h
      simp only [Option.some.injEq] at h
      subst h
      rw [get_level_eq_getElem?]
      simp

/-- C5 witness: the doc example's level 0 is the input `[2,4,6,8,9]`. -/
theorem get_level_zero_witness :
    MipMap1D.new intOps [2, 4, 6, 8, 9] =
      some ⟨[[2, 4, 6, 8, 9], [3, 7, 9], [5, 9], [7]]⟩ ∧
    MipMap1D.get_level
      (⟨[[2, 4, 6, 8, 9], [3, 7, 9], [5, 9], [7]]⟩ : MipMap1D ℤ) 0 =
      some [2, 4, 6, 8, 9] :=
  ⟨new_intOps_example, get_level_zero intOps [2, 4, 6, 8, 9] _ new_intOps_example⟩

/-- C6: In every successfully constructed mipmap, for every level index
`k ≥ 1`, level `k` is exactly the downsample of level `k-1`, and its
length is `⌈length(level k-1) / 2⌉`. -/
theorem level_step_downsample {T : Type} (ops : NumOps T) (source : List T)
    (m : MipMap1D T) (h : MipMap1D.new ops source = some m) (k : Nat)
    (hk1 : 1 ≤ k) (hk : k < MipMap1D.num_levels m) :
    ∃ prev cur, MipMap1D.get_level m (k - 1) = some prev ∧
      MipMap1D.get_level m k = some cur ∧
      downsample ops prev = some cur ∧ cur.length = (prev.length + 1) / 2 := by
  unfold MipMap1D.new at h
  cases hb : buildLoop ops source with
  | none => rw [hb] at h; exact absurd h (by simp)
  | some levels =>
      rw [hb] at h
      simp only [Option.some.injEq] at h
      subst h
      have hch := (buildLoop_invariant ops source levels hb).1
      have hlen : k < (source :: levels).length := hk
      obtain ⟨a, b, ha, hb2, hab⟩ :=
        chained_get ops source levels (k - 1) hch (by omega)
      have hk' : k - 1 + 1 = k := by omega
      rw [hk'] at hb2
      refine ⟨a, b, ?_, ?_, hab, downsample_length ops a b hab⟩
      · rw [get_level_eq_getElem?]; exact ha
      · rw [get_level_eq_getElem?]; exact hb2

/-- C6 witness: in the doc example, level 1 `[3,7,9]` is the downsample
of level 0 `[2,4,6,8,9]` and has length `⌈5/2⌉ = 3`. -/
theorem level_step_downsample_witness :
    MipMap1D.new intOps [2, 4, 6, 8, 9] =
      some ⟨[[2, 4, 6, 8, 9], [3, 7, 9], [5, 9], [7]]⟩ ∧
    (1 : Nat) ≤ 1 ∧
    1 < MipMap1D.num_levels
      (⟨[[2, 4, 6, 8, 9], [3, 7, 9], [5, 9], [7]]⟩ : MipMap1D ℤ) ∧
    (∃ prev cur,
      MipMap1D.get_level
        (⟨[[2, 4, 6, 8, 9], [3, 7, 9], [5, 9], [7]]⟩ : MipMap1D ℤ) 0 = some prev ∧
      MipMap1D.get_level
        (⟨[[2, 4, 6, 8, 9], [3, 7, 9], [5, 9], [7]]⟩ : MipMap1D ℤ) 1 = some cur ∧
      downsample intOps prev = some cur ∧ cur.length = (prev.length + 1) / 2) :=
  ⟨new_intOps_example, le_refl 1, by decide,
    level_step_downsample intOps [2, 4, 6, 8, 9] _ new_intOps_example 1
      (le_refl 1) (by decide)⟩

/-- C7: For every non-empty input on which construction succeeds, the
final (highest-index) level has length exactly 1, and no level other
than the final one has length ≤ 1 (construction halts exactly at the
first length-1 level). -/
theorem final_level_length_one {T : Type} (ops : NumOps T) (source : List T)
    (m : MipMap1D T) (h : MipMap1D.new ops source = some m) (hne : source ≠ []) :
    (∃ lastLevel,
      MipMap1D.get_level m (MipMap1D.num_levels m - 1) = some lastLevel ∧
      lastLevel.length = 1) ∧
    ∀ k lv, k + 1 < MipMap1D.num_levels m →
      MipMap1D.get_level m k = some lv → 1 < lv.length := by
  unfold MipMap1D.new at h
  cases hb : buildLoop ops source with
  | none => rw [hb] at h; exact absurd h (by simp)
  | some levels =>
      rw [hb] at h
      simp only [Option.some.injEq] at h
      subst h
      have hpos : 0 < source.length := List.length_pos.2 hne
      have hinv := buildLoop_invariant ops source levels hb
      constructor
      · have hlast := hinv.2.1 (by omega)
        have hnum : MipMap1D.num_levels (⟨source :: levels⟩ : MipMap1D T) =
            levels.length + 1 := rfl
        refine ⟨(source :: levels).getLast (by simp), ?_, hlast⟩
        rw [get_level_eq_getElem?, hnum]
        have hidx : levels.length + 1 - 1 < (source :: levels).length := by simp
        rw [List.getElem?_eq_getElem hidx, List.getLast_eq_getElem]
        simp
      · intro k lv hk hget
        rw [get_level_eq_getElem?] at hget
        rw [List.getElem?_eq_some] at hget
        obtain ⟨hklt, hgetk⟩ := hget
        have hk2 : k + 1 < (source :: levels).length := hk
        have hdrop : k < (source :: levels).dropLast.length := by
          rw [List.length_dropLast]
          omega
        have heq : (source :: levels).dropLast.get ⟨k, hdrop⟩ = lv := by
          rw [List.get_eq_getElem, List.getElem_dropLast, hgetk]
        have hmem : lv ∈ (source :: levels).dropLast := by
          rw [← heq]
          exact List.get_mem _ _ _
        exact hinv.2.2 lv hmem

/-- C7 witness: in the doc example the final level (index 3) is `[7]`,
of length 1, and level 0 (a non-final level) has length `5 > 1`. -/
theorem final_level_length_one_witness :
    MipMap1D.new intOps [2, 4, 6, 8, 9] =
      some ⟨[[2, 4, 6, 8, 9], [3, 7, 9], [5, 9], [7]]⟩ ∧
    ([2, 4, 6, 8, 9] : List ℤ) ≠ [] ∧
    ((∃ lastLevel,
      MipMap1D.get_level
        (⟨[[2, 4, 6, 8, 9], [3, 7, 9], [5, 9], [7]]⟩ : MipMap1D ℤ)
        (MipMap1D.num_levels
          (⟨[[2, 4, 6, 8, 9], [3, 7, 9], [5, 9], [7]]⟩ : MipMap1D ℤ) - 1) =
        some lastLevel ∧ lastLevel.length = 1) ∧
    ∀ k lv, k + 1 < MipMap1D.num_levels
        (⟨[[2, 4, 6, 8, 9], [3, 7, 9], [5, 9], [7]]⟩ : MipMap1D ℤ) →
      MipMap1D.get_level
        (⟨[[2, 4, 6, 8, 9], [3, 7, 9], [5, 9], [7]]⟩ : MipMap1D ℤ) k = some lv →
      1 < lv.length) :=
  ⟨new_intOps_example, by simp,
    final_level_length_one intOps [2, 4, 6, 8, 9] _ new_intOps_example (by simp)⟩

/-- C8: For the empty input, construction succeeds with exactly one
level, which is empty: the loop body (and hence the downsampling step)
is never entered, `num_levels = 1` and `get_level 0` returns the empty
sequence. -/
theorem empty_input_single_level {T : Type} (ops : NumOps T) :
    MipMap1D.new ops ([] : List T) = some ⟨[[]]⟩ ∧
    MipMap1D.num_levels (⟨[[]]⟩ : MipMap1D T) = 1 ∧
    MipMap1D.get_level (⟨[[]]⟩ : MipMap1D T) 0 = some [] := by
  refine ⟨?_, rfl, ?_⟩
  · unfold MipMap1D.new
    rw [buildLoop_le_one ops (by simp)]
  · rw [get_level_eq_getElem?]
    rfl

/-- C9: If a numeric conversion fails while producing an averaged value
during downsampling (the chunk-combining operation returns `none`,
modelling the `.unwrap()` panic), the whole downsampling step and the
whole construction call abort (`none`) rather than returning data with
that chunk malformed, wrapped or truncated. -/
theorem conversion_failure_aborts {T : Type} (ops : NumOps T) (source : List T)
    (c : List T) (hc : c ∈ chunksTwo source) (hfail : combineChunk ops c = none) :
    downsample ops source = none ∧ MipMap1D.new ops source = none := by
  have hdown : downsample ops source = none := combineAll_none ops _ c hc hfail
  refine ⟨hdown, ?_⟩
  have hlen : 1 < source.length := by
    cases source with
    | nil => simp [chunksTwo] at hc
    | cons a tail =>
        cases tail with
        | nil =>
            simp [chunksTwo] at hc
            subst hc
            simp [combineChunk] at hfail
        | cons b rest => simp
  unfold MipMap1D.new
  rw [buildLoop_step_none ops hlen hdown]

/-- C9 witness: with a dictionary whose `from_f64` always fails
(modelling a type too narrow for the averaged value), constructing from
`[1, 3]` aborts. -/
theorem conversion_failure_aborts_witness :
    (([1, 3] : List ℤ) ∈ chunksTwo [1, 3] ∧ combineChunk failOps [1, 3] = none) ∧
    (downsample failOps [1, 3] = none ∧ MipMap1D.new failOps [1, 3] = none) := by
  have h1 : ([1, 3] : List ℤ) ∈ chunksTwo [1, 3] := by simp [chunksTwo]
  have h2 : combineChunk failOps [1, 3] = none := rfl
  exact ⟨⟨h1, h2⟩, conversion_failure_aborts failOps [1, 3] [1, 3] h1 h2⟩

/-- C10: Construction terminates on every finite input: whenever the
current level has length greater than 1, a successful downsampling step
strictly shrinks it (`⌈n/2⌉ < n` for `n > 1`), so the loop measure
decreases; and chunking yields only chunks of length 1 or 2, so the
`panic!("Unsound condition")` arm of the match is unreachable. -/
theorem construction_terminates {T : Type} (ops : NumOps T) (current : List T) :
    (∀ out, downsample ops current = some out → 1 < current.length →
      out.length < current.length) ∧
    ∀ c ∈ chunksTwo current, c.length = 1 ∨ c.length = 2 := by
  refine ⟨?_, chunksTwo_shapes current⟩
  intro out hout hl
  have := downsample_length ops current out hout
  omega

/-- C10 witness: on `[2,4,6,8,9]` the downsample `[3,7,9]` is strictly
shorter, and the chunk `[2,4]` has length 2. -/
theorem construction_terminates_witness :
    (downsample intOps [2, 4, 6, 8, 9] = some [3, 7, 9] ∧
      ([3, 7, 9] : List ℤ).length < ([2, 4, 6, 8, 9] : List ℤ).length) ∧
    (([2, 4] : List ℤ) ∈ chunksTwo [2, 4, 6, 8, 9] ∧
      (([2, 4] : List ℤ).length = 1 ∨ ([2, 4] : List ℤ).length = 2)) := by
  have hd : downsample intOps [2, 4, 6, 8, 9] = some [3, 7, 9] := by
    norm_num [downsample, chunksTwo, combineAll, combineChunk, intOps]
  have hm : ([2, 4] : List ℤ) ∈ chunksTwo [2, 4, 6, 8, 9] := by simp [chunksTwo]
  exact ⟨⟨hd, (construction_terminates intOps [2, 4, 6, 8, 9]).1 [3, 7, 9] hd
      (by simp)⟩,
    ⟨hm, (construction_terminates intOps [2, 4, 6, 8, 9]).2 [2, 4] hm⟩⟩

end MipMap
